import Mathlib

/-!
Verification of the plan-limit enforcement engine of OctoBot
(`src/octobot/limits.py`): the exchange limiter, the symbol limiter,
the timeframe limiter and the orchestrator `apply_config_limits`.

Modelling conventions:
* Python dicts (insertion ordered, mutated in place) become association
  lists that are rebuilt entry by entry.
* A missing dict key read with `d[k]` raises `KeyError`; such keys are
  `Option` fields and a `none` read marks the computation as raised.
  Keys read with `d.get(k, default)` become `Option.getD`.
* A Python function that may raise returns a `LimitResult` whose
  `raised` flag records that an exception escaped; the `state` field
  holds the (possibly partially mutated) data at that point, matching
  in-place mutation up to the raise site.
* Timeframes are identified by their duration in minutes (`1m = 1`,
  `1h = 60`, `1d = 1440`, `1w = 10080`); distinct timeframe values have
  distinct durations, as in `octobot_commons.enums.TimeFrames`.
-/

/-- One value of the `exchanges` mapping: the `enabled` flag
(`CONFIG_ENABLED_OPTION`, read with default `True`) and the market type
(`CONFIG_EXCHANGE_TYPE`, read with default spot). `none` models a missing
key. -/
structure ExchangeEntry where
  enabled : Option Bool
  marketType : Option String
deriving Repr, DecidableEq

/-- One value of the `crypto_currencies` mapping: the `enabled` flag
(read with default `True`) and the pair list (`CONFIG_CRYPTO_PAIRS`,
read with a raising `[]` access, hence `Option`). -/
structure CurrencyEntry where
  enabled : Option Bool
  pairs : Option (List String)
deriving Repr, DecidableEq

/-- The slice of the configuration dict the limiters touch.  The
`exchanges` and `crypto_currencies` keys are read with raising `[]`
accesses, hence `Option`. -/
structure DictConfig where
  exchanges : Option (List (String × ExchangeEntry))
  cryptoCurrencies : Option (List (String × CurrencyEntry))
deriving Repr, DecidableEq

/-- Modelled from the spec: an activated strategy as seen through the
external collaborators (`get_activated_strategies_classes`,
`get_time_frames_from_strategy`, `update_time_frames_config`, none of
which is in this repository): its name and its currently configured
timeframe list, which `update_time_frames_config` overwrites. -/
structure Strategy where
  name : String
  timeFrames : List Nat
deriving Repr, DecidableEq

/-- The full `configuration` object handed to `apply_config_limits`:
its `.config` dict plus the activated strategies resolved through the
tentacles setup (external collaborators, see `Strategy`). -/
structure FullConfig where
  config : DictConfig
  strategies : List Strategy
deriving Repr, DecidableEq

/-- Result of one limiter call: the mutated state, the returned warning
message (`""` when the limiter returned without a message or raised),
the `logger.error` lines it emitted, and whether it raised. -/
structure LimitResult (α : Type) where
  state : α
  message : String
  logs : List String
  raised : Bool
deriving Repr, DecidableEq

/-! ## Exchange limiter (`_apply_exchanges_limits`, limits.py lines 24-41) -/

/-- The synthetic display key `f"{exchange}[{market_type}]"`. -/
def exchangeKey (n : String) (e : ExchangeEntry) : String :=
  n ++ "[" ++ e.marketType.getD "spot" ++ "]"

/-- The enabled-exchange keys counted at limits.py lines 25-29. -/
def enabledExchangeKeys (exs : List (String × ExchangeEntry)) : List String :=
  (exs.filter fun p => p.2.enabled.getD true).map fun p => exchangeKey p.1 p.2

/-- The loop of limits.py lines 32-38: walk the mapping, keep the first
`limit` enabled entries (collecting their names), disable and log every
later enabled entry. -/
def exchLoop (limit : Nat) :
    List (String × ExchangeEntry) → List String → List String →
      List (String × ExchangeEntry) × List String × List String
  | [], kept, logs => ([], kept, logs)
  | (n, e) :: rest, kept, logs =>
    if e.enabled.getD true then
      if kept.length < limit then
        let r := exchLoop limit rest (kept ++ [n]) logs
        ((n, e) :: r.1, r.2)
      else
        let r := exchLoop limit rest kept (logs ++ ["Disabled " ++ n])
        ((n, { e with enabled := some false }) :: r.1, r.2)
    else
      let r := exchLoop limit rest kept logs
      ((n, e) :: r.1, r.2)

/-- `_apply_exchanges_limits` (limits.py lines 24-41). -/
def _apply_exchanges_limits (cfg : DictConfig) (limit : Nat) :
    LimitResult DictConfig :=
  match cfg.exchanges with
  | none => ⟨cfg, "", [], true⟩
  | some exs =>
    if limit < (enabledExchangeKeys exs).length then
      let r := exchLoop limit exs [] []
      ⟨{ cfg with exchanges := some r.1 },
        "Reached maximum allowed simultaneous exchanges for this plan, maximum is "
          ++ toString limit
          ++ ". Your OctoBot will trade on the following exchanges: "
          ++ String.intercalate ", " r.2.1,
        r.2.2, false⟩
    else ⟨cfg, "", [], false⟩

/-! ## Symbol limiter (`_apply_symbols_limits`, limits.py lines 44-74) -/

/-- The wildcard test of limits.py lines 57-58
(`symbol == CONFIG_SYMBOLS_WILDCARD[0]`, where
`CONFIG_SYMBOLS_WILDCARD` is the singleton list containing the star
token; the second disjunct compares a string to that list and is never
true for string pairs). -/
def isWildcard (s : String) : Bool := s == "*"

/-- State of the inner pair scan of limits.py lines 55-69:
the global accepted list `enabled_symbols`, the currency's
`updated_symbols`, whether a wildcard was hit (breaking the scan),
whether a pair was rejected over the limit, and the log lines so far. -/
structure PairScan where
  accepted : List String
  updated : List String
  wildcard : Bool
  disabledAny : Bool
  logs : List String
deriving Repr, DecidableEq

/-- The inner pair loop of limits.py lines 56-69: a wildcard stops the
scan; otherwise a pair is appended to both `enabled_symbols` and
`updated_symbols` while the accepted count is below the limit, and is
rejected (with a log line) afterwards. -/
def scanPairs (limit : Nat) (currency : String) :
    List String → PairScan → PairScan
  | [], st => st
  | s :: rest, st =>
    if isWildcard s then { st with wildcard := true }
    else if st.accepted.length < limit then
      scanPairs limit currency rest
        { st with accepted := st.accepted ++ [s], updated := st.updated ++ [s] }
    else
      scanPairs limit currency rest
        { st with
          disabledAny := true,
          logs := st.logs ++ ["Disabled " ++ s ++ " trading pair from " ++ currency] }

/-- State threaded through the currency loop of limits.py lines 45-70. -/
structure SymState where
  enabledSymbols : List String
  hasDisabled : Bool
  message : String
  logs : List String
deriving Repr, DecidableEq

/-- One iteration of the currency loop (limits.py lines 48-70) for the
currency `currency ↦ e`; `none` models the `KeyError` raised by the
`CONFIG_CRYPTO_PAIRS` access of line 56.  A disabled currency is
skipped; an enabled currency met with the accepted count already at the
limit is disabled whole (line 50-54); otherwise its pairs are scanned
and its pair list replaced by `updated_symbols` (line 70, reached also
after a wildcard `break`), the currency being disabled when a wildcard
was hit (line 59). -/
def symCurrencyStep (limit : Nat) (currency : String) (e : CurrencyEntry)
    (st : SymState) : Option (CurrencyEntry × SymState) :=
  if e.enabled.getD true then
    if limit ≤ st.enabledSymbols.length then
      some ({ e with enabled := some false },
        { st with
          hasDisabled := true,
          logs := st.logs ++ ["Disabled all " ++ currency ++ " trading pairs"] })
    else
      match e.pairs with
      | none => none
      | some ps =>
        let r := scanPairs limit currency ps
          ⟨st.enabledSymbols, [], false, false, st.logs⟩
        some ({ e with
                pairs := some r.updated,
                enabled := if r.wildcard then some false else e.enabled },
          ⟨r.accepted,
            st.hasDisabled || r.wildcard || r.disabledAny,
            if r.wildcard then "Disabled wildcard symbol for " ++ currency ++ ". "
            else st.message,
            r.logs⟩)
  else some (e, st)

/-- The currency loop of limits.py lines 48-70.  The third component
records a raise, in which case the remaining entries are untouched. -/
def symLoop (limit : Nat) :
    List (String × CurrencyEntry) → SymState →
      List (String × CurrencyEntry) × SymState × Bool
  | [], st => ([], st, false)
  | (c, e) :: rest, st =>
    match symCurrencyStep limit c e st with
    | none => ((c, e) :: rest, st, true)
    | some (e2, st2) =>
      let r := symLoop limit rest st2
      ((c, e2) :: r.1, r.2.1, r.2.2)

/-- Initial state of the currency loop (limits.py lines 45-47). -/
def symInit : SymState := ⟨[], false, "", []⟩

/-- `_apply_symbols_limits` (limits.py lines 44-74). -/
def _apply_symbols_limits (cfg : DictConfig) (limit : Nat) :
    LimitResult DictConfig :=
  match cfg.cryptoCurrencies with
  | none => ⟨cfg, "", [], true⟩
  | some ccs =>
    let r := symLoop limit ccs symInit
    if r.2.2 then
      ⟨{ cfg with cryptoCurrencies := some r.1 }, "", r.2.1.logs, true⟩
    else
      ⟨{ cfg with cryptoCurrencies := some r.1 },
        if r.2.1.hasDisabled then
          r.2.1.message
            ++ "Reached maximum allowed simultaneous trading pairs for this plan, maximum is "
            ++ toString limit
            ++ ". Your OctoBot will trade following pairs: "
            ++ String.intercalate ", " r.2.1.enabledSymbols ++ "."
        else r.2.1.message,
        r.2.1.logs, false⟩

/-! ## Timeframe limiter (`_apply_time_frames_limits`, limits.py lines 77-126) -/

/-- Modelled from the spec: the display value of a timeframe
(`octobot_commons.enums.TimeFrames`, external), keyed by its duration in
minutes. -/
def tfValue (n : Nat) : String :=
  if n = 1 then "1m" else if n = 5 then "5m" else if n = 60 then "1h"
  else if n = 240 then "4h" else if n = 1440 then "1d"
  else if n = 10080 then "1w" else toString n ++ "m"

/-- Modelled from the spec: `time_frame_manager.sort_time_frames`
(external `octobot_commons` collaborator) sorts timeframes ascending by
duration. -/
def sortTimeFrames (l : List Nat) : List Nat :=
  List.insertionSort (fun a b => a ≤ b) l

/-- Python `set(...)` materialized back into a list: duplicates removed,
first occurrences kept.  CPython's set iteration order is unspecified
(hash based); what matters below is that it is *not* normalized to
duration order, which this deterministic model reflects. -/
def pySetFrom (seen : List Nat) : List Nat → List Nat
  | [] => []
  | x :: xs =>
    if seen.contains x then pySetFrom seen xs
    else x :: pySetFrom (seen ++ [x]) xs

/-- `list(set(l))` on timeframe lists. -/
def pySet (l : List Nat) : List Nat := pySetFrom [] l

/-- Python `l[i:]` for a possibly negative start index. -/
def pySliceFrom (l : List Nat) (i : Int) : List Nat :=
  if 0 ≤ i then l.drop i.toNat else l.drop ((l.length : Int) + i).toNat

/-- State threaded through the strategy loop of limits.py lines 82-121:
the `has_disabled_time_frames` flag, the aggregate
`all_enabled_time_frames`, the log lines, and the strategies for which
`update_time_frames_config` was invoked (external persist collaborator,
recorded by name, in invocation order). -/
structure TfState where
  hasDisabled : Bool
  allEnabled : List Nat
  logs : List String
  updates : List String
deriving Repr, DecidableEq

/-- The aggregate update of limits.py lines 86-106 for one strategy's
`config_time_frames`: combine with the aggregate as a set; strictly
below the limit adopt the sorted combination; strictly above the limit
set the flag and, unless the aggregate already has `limit` members,
admit `missing_tf[limit - len(all_enabled_time_frames):]` of the
ascending-sorted missing list; exactly at the limit adopt
`list(combined_time_frames)` as-is. -/
def tfCombine (limit : Nat) (st : TfState) (configTfs : List Nat) : TfState :=
  let combined := pySet (st.allEnabled ++ configTfs)
  if combined.length < limit then
    { st with allEnabled := sortTimeFrames combined }
  else if limit < combined.length then
    if st.allEnabled.length = limit then { st with hasDisabled := true }
    else
      let missing := sortTimeFrames (configTfs.filter fun tf => !st.allEnabled.contains tf)
      let added := pySliceFrom missing ((limit : Int) - (st.allEnabled.length : Int))
      { st with
        hasDisabled := true,
        allEnabled := sortTimeFrames (st.allEnabled ++ added) }
  else { st with allEnabled := combined }

/-- One iteration of the strategy loop (limits.py lines 82-121): update
the aggregate, then, whenever the flag is set, recompute the strategy's
own enabled timeframes as `[tf for tf in config_time_frames if tf in
all_enabled_time_frames]`, log one disable line per requested timeframe
not in that list, and persist the new list iff one was missing. -/
def tfStrategyStep (limit : Nat) (st : TfState) (s : Strategy) :
    Strategy × TfState :=
  let configTfs := s.timeFrames
  let st1 := tfCombine limit st configTfs
  if st1.hasDisabled then
    let stratEnabled := configTfs.filter fun tf => st1.allEnabled.contains tf
    let missing := configTfs.filter fun tf => !stratEnabled.contains tf
    let st2 := { st1 with
      logs := st1.logs ++ missing.map fun tf =>
        "Disabled " ++ tfValue tf ++ " time frame for " ++ s.name }
    if missing.isEmpty then (s, st2)
    else ({ s with timeFrames := stratEnabled },
      { st2 with updates := st2.updates ++ [s.name] })
  else (s, st1)

/-- The strategy loop of limits.py lines 82-121, returning the
strategies with their persisted timeframe configs and the final state. -/
def tfLoop (limit : Nat) : List Strategy → TfState → List Strategy × TfState
  | [], st => ([], st)
  | s :: rest, st =>
    let r1 := tfStrategyStep limit st s
    let r := tfLoop limit rest r1.2
    (r1.1 :: r.1, r.2)

/-- Initial state of the strategy loop (limits.py lines 79-80). -/
def tfInit : TfState := ⟨false, [], [], []⟩

/-- `_apply_time_frames_limits` (limits.py lines 77-126). -/
def _apply_time_frames_limits (fc : FullConfig) (limit : Nat) :
    LimitResult FullConfig :=
  let r := tfLoop limit fc.strategies tfInit
  ⟨{ fc with strategies := r.1 },
    if r.2.hasDisabled then
      "Reached maximum allowed simultaneous time frames for this plan, maximum is "
        ++ toString limit
        ++ ". Your OctoBot will trade using following time frames: "
        ++ String.intercalate ", " (r.2.allEnabled.map tfValue) ++ "."
    else "",
    r.2.logs, false⟩

/-! ## Orchestrator (`apply_config_limits`, limits.py lines 129-147)

The three ceilings `MAX_ALLOWED_EXCHANGES`, `MAX_ALLOWED_SYMBOLS` and
`MAX_ALLOWED_TIME_FRAMES` come from `octobot.constants` (outside this
repository); each is either a positive integer or the
`UNLIMITED_ALLOWED` sentinel, modelled as `Option Nat` with `none`
meaning unlimited.  The single `try` of lines 132-143 wraps all three
limiter calls, so a raise skips every later limiter while the messages
collected so far are still returned. -/

/-- Run one limiter inside the shared `try` block: skipped entirely if a
previous limiter raised or its ceiling is unlimited; otherwise its
non-empty message is appended (limits.py lines 133-141). -/
def runLimiter (lim : Option Nat) (f : FullConfig → Nat → LimitResult FullConfig)
    (acc : FullConfig × List String × Bool) : FullConfig × List String × Bool :=
  if acc.2.2 then acc
  else
    match lim with
    | none => acc
    | some l =>
      let r := f acc.1 l
      (r.state, acc.2.1 ++ (if r.message = "" then [] else [r.message]), r.raised)

/-- The exchange limiter lifted to the full configuration object
(`configuration.config` is the dict slice). -/
def exchangesLimiterF (fc : FullConfig) (l : Nat) : LimitResult FullConfig :=
  let r := _apply_exchanges_limits fc.config l
  ⟨{ fc with config := r.state }, r.message, r.logs, r.raised⟩

/-- The symbol limiter lifted to the full configuration object. -/
def symbolsLimiterF (fc : FullConfig) (l : Nat) : LimitResult FullConfig :=
  let r := _apply_symbols_limits fc.config l
  ⟨{ fc with config := r.state }, r.message, r.logs, r.raised⟩

/-- `apply_config_limits` (limits.py lines 129-147): exchanges, then
symbols, then timeframes, under one `try`; returns the mutated
configuration and the collected warning messages. -/
def apply_config_limits (fc : FullConfig) (maxEx maxSym maxTf : Option Nat) :
    FullConfig × List String :=
  let a1 := runLimiter maxEx exchangesLimiterF (fc, [], false)
  let a2 := runLimiter maxSym symbolsLimiterF a1
  let a3 := runLimiter maxTf _apply_time_frames_limits a2
  (a3.1, a3.2.1)

/-! ## Concrete configurations used as witnesses and counterexamples -/

/-- A strategy requiring the single timeframe `1m`. -/
def stratA : Strategy := ⟨"StrategyA", [1]⟩

/-- A strategy requiring `1h`, `1d` and `1w`. -/
def stratB : Strategy := ⟨"StrategyB", [60, 1440, 10080]⟩

/-- A strategy requiring `1m`, `1h` and `1d`. -/
def stratS1 : Strategy := ⟨"S1", [1, 60, 1440]⟩

/-- A strategy requiring only `1m`. -/
def stratS2 : Strategy := ⟨"S2", [1]⟩

/-- A configuration whose dict lacks the `exchanges` key (so the
exchange limiter raises `KeyError`) while holding one enabled currency
with two pairs. -/
def cfgC1 : DictConfig :=
  ⟨none, some [("Bitcoin", ⟨none, some ["BTC/USDT", "BTC/EUR"]⟩)]⟩

/-- `cfgC1` wrapped as a full configuration with no strategies. -/
def fcC1 : FullConfig := ⟨cfgC1, []⟩

/-- A full configuration with empty exchange and currency mappings and
the two strategies `stratA`, `stratB`. -/
def fcC5 : FullConfig := ⟨⟨some [], some []⟩, [stratA, stratB]⟩

/-! ## Claim theorems -/

/-- C1, counterexample: the claim says a limiter's exception leaves the
remaining limiters running.  On `fcC1` the exchange limiter raises
(`exchanges` key missing) inside the single `try` of
`apply_config_limits`, so the symbol limiter never runs: the
configuration comes back untouched with no messages, although the
symbol ceiling 1 is exceeded — running `_apply_symbols_limits` alone on
the very same configuration would mutate it and return a warning. -/
theorem C1_counterexample :
    apply_config_limits fcC1 (some 1) (some 1) none = (fcC1, []) ∧
    (_apply_symbols_limits fcC1.config 1).state ≠ fcC1.config ∧
    (_apply_symbols_limits fcC1.config 1).message ≠ "" := by
  decide

/-- C2, code bug: with ceiling 2, after `stratA` the aggregate is
`[1m]`; `stratB` then makes `missing_tf = [1h, 1d, 1w]` and the slice
`missing_tf[limit - len(all_enabled_time_frames):] = missing_tf[1:]`
admits *two* timeframes instead of one, so the aggregate ends with 3 >
2 distinct timeframes, as does the union of the strategies' enabled
sets — the returned message even says "maximum is 2" while listing
three timeframes. -/
theorem C2_timeframe_ceiling_violated :
    (tfLoop 2 [stratA, stratB] tfInit).2.allEnabled = [1, 1440, 10080] ∧
    2 < (tfLoop 2 [stratA, stratB] tfInit).2.allEnabled.length ∧
    2 < (pySet ((tfLoop 2 [stratA, stratB] tfInit).1.map Strategy.timeFrames).flatten).length ∧
    (_apply_time_frames_limits ⟨⟨some [], some []⟩, [stratA, stratB]⟩ 2).message
      = "Reached maximum allowed simultaneous time frames for this plan, maximum is 2. Your OctoBot will trade using following time frames: 1m, 1d, 1w." := by
  decide

/-- C3, code bug: in the state with aggregate `[1m]` and ceiling 2, the
claim says exactly `ceiling - |aggregate| = 1` timeframe (the longest
missing one, `1w`) is admitted from `stratB`, giving aggregate
`[1m, 1w]`; the code's slice `missing_tf[1:]` instead admits the 2
timeframes `[1d, 1w]`, giving `[1m, 1d, 1w]`. -/
theorem C3_admitted_tail_wrong :
    (tfCombine 2 ⟨false, [1], [], []⟩ [60, 1440, 10080]).allEnabled = [1, 1440, 10080] ∧
    (tfCombine 2 ⟨false, [1], [], []⟩ [60, 1440, 10080]).allEnabled
      ≠ sortTimeFrames ([1] ++ [10080]) ∧
    ((tfCombine 2 ⟨false, [1], [], []⟩ [60, 1440, 10080]).allEnabled.filter
        (fun tf => !([1].contains tf))).length ≠ 2 - [1].length := by
  decide

/-- C4, counterexample: with ceiling 2, `stratS1` pushes the aggregate
through the over-limit branch to `[1d]`, and `stratS2` then lands on
the `== ceiling` branch, which adopts `list(combined_time_frames)`
without sorting: the aggregate becomes `[1d, 1m]` — not ascending
duration order — and the final message lists "1d, 1m" in that
unsorted order. -/
theorem C4_counterexample :
    (tfLoop 2 [stratS1, stratS2] tfInit).2.allEnabled = [1440, 1] ∧
    ¬ List.Sorted (fun a b => a ≤ b) (tfLoop 2 [stratS1, stratS2] tfInit).2.allEnabled ∧
    (_apply_time_frames_limits ⟨⟨some [], some []⟩, [stratS1, stratS2]⟩ 2).message
      = "Reached maximum allowed simultaneous time frames for this plan, maximum is 2. Your OctoBot will trade using following time frames: 1d, 1m." := by
  decide

/-- C5, code bug: applying `apply_config_limits` twice to `fcC5` with
timeframe ceiling 2 is not idempotent: the first pass leaves
`stratB` with `[1d, 1w]` and the over-capacity aggregate `[1m, 1d,
1w]`; the second pass starts afresh, prunes `stratB` again to `[1w]`
and returns another warning message. -/
theorem C5_second_pass_not_identity :
    ¬((apply_config_limits (apply_config_limits fcC5 none none (some 2)).1
          none none (some 2)).1
        = (apply_config_limits fcC5 none none (some 2)).1 ∧
      (apply_config_limits (apply_config_limits fcC5 none none (some 2)).1
          none none (some 2)).2
        = []) := by
  decide

lemma exchanges_raised_message (cfg : DictConfig) (l : Nat)
    (h : (_apply_exchanges_limits cfg l).raised = true) :
    (_apply_exchanges_limits cfg l).message = "" := by
  unfold _apply_exchanges_limits at h ⊢
  cases hex : cfg.exchanges with
  | none => rfl
  | some exs =>
    rw [hex] at h
    by_cases hlt : l < (enabledExchangeKeys exs).length <;> simp [hlt] at h

lemma symbols_raised_message (cfg : DictConfig) (l : Nat)
    (h : (_apply_symbols_limits cfg l).raised = true) :
    (_apply_symbols_limits cfg l).message = "" := by
  unfold _apply_symbols_limits at h ⊢
  cases hcc : cfg.cryptoCurrencies with
  | none => rfl
  | some ccs =>
    rw [hcc] at h
    by_cases hr : (symLoop l ccs symInit).2.2
    · simp [hr]
    · simp [hr] at h

/-- C1, amended: any exception raised by an individual limiter is
caught at the orchestrator, which still returns whatever messages were
already collected and keeps the (possibly partial) mutations made so
far — but the remaining limiters in the fixed sequence do not run.
First conjunct: the exchange limiter raises, so nothing later runs and
no message is returned (a raising limiter returns no message).  Second
conjunct: the exchange stage finishes without raising (run or skipped)
and the symbol limiter raises; the exchange stage's collected messages
are returned unchanged, the state is the exchange-mutated configuration
with the symbol limiter's partial mutation applied on top, and the
timeframe limiter is skipped whatever its ceiling. -/
theorem C1_amended_exception_best_effort (fc : FullConfig) (maxEx : Option Nat)
    (symLim : Nat) (maxTf : Option Nat) :
    (∀ exLim, maxEx = some exLim →
      (_apply_exchanges_limits fc.config exLim).raised = true →
      apply_config_limits fc maxEx (some symLim) maxTf
        = ({ fc with config := (_apply_exchanges_limits fc.config exLim).state }, []))
    ∧ ((runLimiter maxEx exchangesLimiterF (fc, [], false)).2.2 = false →
      (_apply_symbols_limits
          (runLimiter maxEx exchangesLimiterF (fc, [], false)).1.config symLim).raised
        = true →
      apply_config_limits fc maxEx (some symLim) maxTf
        = ({ (runLimiter maxEx exchangesLimiterF (fc, [], false)).1 with config :=
              (_apply_symbols_limits
                (runLimiter maxEx exchangesLimiterF (fc, [], false)).1.config
                symLim).state },
            (runLimiter maxEx exchangesLimiterF (fc, [], false)).2.1)) := by
  constructor
  · intro exLim hEx hraise
    subst hEx
    have hmsg := exchanges_raised_message fc.config exLim hraise
    unfold apply_config_limits
    simp [runLimiter, exchangesLimiterF, hraise, hmsg]
  · intro hok hraise
    unfold apply_config_limits
    generalize hA : runLimiter maxEx exchangesLimiterF (fc, [], false) = A at hok hraise ⊢
    obtain ⟨fc1, msgs1, r1⟩ := A
    simp only at hok hraise
    subst hok
    have hmsg := symbols_raised_message fc1.config symLim hraise
    simp [runLimiter, symbolsLimiterF, hraise, hmsg]

/-- A configuration on which the exchange limiter runs and warns
(ceiling 1 over two enabled exchanges) and the symbol limiter then
raises mid-loop: the second currency's pairs key is missing. -/
def fcRaise : FullConfig :=
  ⟨⟨some [("binance", ⟨none, none⟩), ("kraken", ⟨none, none⟩)],
    some [("BTC", ⟨none, some ["BTC/USDT"]⟩), ("ETH", ⟨none, none⟩)]⟩, []⟩

/-- Witness for `C1_amended_exception_best_effort` at `fcRaise`: the
exchange warning collected before the symbol limiter's KeyError is
still returned, the exchange mutation and the symbol limiter's partial
mutation are kept, and the timeframe limiter is skipped. -/
theorem C1_amended_witness :
    (apply_config_limits fcRaise (some 1) (some 5) none
      = ({ (runLimiter (some 1) exchangesLimiterF (fcRaise, [], false)).1 with config :=
            (_apply_symbols_limits
              (runLimiter (some 1) exchangesLimiterF (fcRaise, [], false)).1.config
              5).state },
          (runLimiter (some 1) exchangesLimiterF (fcRaise, [], false)).2.1))
    ∧ (runLimiter (some 1) exchangesLimiterF (fcRaise, [], false)).2.1
      = ["Reached maximum allowed simultaneous exchanges for this plan, maximum is 1. Your OctoBot will trade on the following exchanges: binance"] :=
  ⟨(C1_amended_exception_best_effort fcRaise (some 1) 5 none).2 (by decide) (by decide),
    by decide⟩

/-! ## C6: exact characterization of the exchange limiter -/

/-- The originally-enabled exchange names in mapping iteration order. -/
def enabledExchangeNames (exs : List (String × ExchangeEntry)) : List String :=
  (exs.filter fun p => p.2.enabled.getD true).map Prod.fst

/-- Spec-side reading of C6 (refinement target, following the claim's
words): keep the first `limit` originally-enabled entries untouched
(`seen` counts the enabled entries already passed) and set the enabled
flag of every later originally-enabled entry to false, leaving disabled
entries as they are. -/
def specDisableBeyond (limit : Nat) :
    List (String × ExchangeEntry) → Nat → List (String × ExchangeEntry)
  | [], _ => []
  | (n, e) :: rest, seen =>
    if e.enabled.getD true then
      (if seen < limit then (n, e) else (n, { e with enabled := some false }))
        :: specDisableBeyond limit rest (seen + 1)
    else (n, e) :: specDisableBeyond limit rest seen

lemma specDisableBeyond_ge (limit : Nat) (exs : List (String × ExchangeEntry)) :
    ∀ s1 s2, limit ≤ s1 → limit ≤ s2 →
      specDisableBeyond limit exs s1 = specDisableBeyond limit exs s2 := by
  induction exs with
  | nil => intro s1 s2 h1 h2; rfl
  | cons p rest ih =>
    obtain ⟨n, e⟩ := p
    intro s1 s2 h1 h2
    by_cases he : e.enabled.getD true
    · simp only [specDisableBeyond, he, if_true]
      rw [if_neg (by omega : ¬ s1 < limit), if_neg (by omega : ¬ s2 < limit),
        ih (s1 + 1) (s2 + 1) (by omega) (by omega)]
    · simp only [specDisableBeyond, he, if_false]
      rw [ih s1 s2 h1 h2]
      simp

lemma exchLoop_spec (limit : Nat) (exs : List (String × ExchangeEntry)) :
    ∀ kept logs : List String,
      exchLoop limit exs kept logs =
        (specDisableBeyond limit exs kept.length,
          kept ++ (enabledExchangeNames exs).take (limit - kept.length),
          logs ++ ((enabledExchangeNames exs).drop (limit - kept.length)).map
            (fun n => "Disabled " ++ n)) := by
  induction exs with
  | nil => intro kept logs; simp [exchLoop, specDisableBeyond, enabledExchangeNames]
  | cons p rest ih =>
    obtain ⟨n, e⟩ := p
    intro kept logs
    by_cases he : e.enabled.getD true
    · have hnames : enabledExchangeNames ((n, e) :: rest)
          = n :: enabledExchangeNames rest := by
        simp [enabledExchangeNames, List.filter_cons, he]
      by_cases hk : kept.length < limit
      · have harith : limit - kept.length = (limit - (kept.length + 1)) + 1 := by omega
        simp only [exchLoop, he, hk, if_true, ih, hnames, specDisableBeyond]
        simp [harith, List.take_succ_cons, List.drop_succ_cons, List.append_assoc]
      · have h0 : limit - kept.length = 0 := by omega
        simp only [exchLoop, he, hk, if_true, if_false, ih, hnames, specDisableBeyond, h0]
        rw [specDisableBeyond_ge limit rest kept.length (kept.length + 1)
          (by omega) (by omega)]
        simp [hk, h0]
    · have hnames : enabledExchangeNames ((n, e) :: rest)
          = enabledExchangeNames rest := by
        simp [enabledExchangeNames, List.filter_cons, he]
      simp only [exchLoop, he, if_false, ih, hnames, specDisableBeyond]
      simp

/-- C6: for every exchange mapping and ceiling, if the enabled count
(absent flags counting as enabled) is at most the ceiling the limiter
leaves everything unchanged and returns the empty message; otherwise
exactly the first `ceiling` originally-enabled entries stay enabled,
every later originally-enabled entry gets its flag set to false, and
the message names the ceiling and the retained exchange names in
retention order. -/
theorem C6_exchange_limiter_characterized
    (exs : List (String × ExchangeEntry)) (cc : Option (List (String × CurrencyEntry)))
    (limit : Nat) (hl : 1 ≤ limit) :
    ((enabledExchangeNames exs).length ≤ limit →
        _apply_exchanges_limits ⟨some exs, cc⟩ limit = ⟨⟨some exs, cc⟩, "", [], false⟩)
    ∧ (limit < (enabledExchangeNames exs).length →
        (_apply_exchanges_limits ⟨some exs, cc⟩ limit).state
            = ⟨some (specDisableBeyond limit exs 0), cc⟩
          ∧ (_apply_exchanges_limits ⟨some exs, cc⟩ limit).message
            = "Reached maximum allowed simultaneous exchanges for this plan, maximum is "
              ++ toString limit
              ++ ". Your OctoBot will trade on the following exchanges: "
              ++ String.intercalate ", " ((enabledExchangeNames exs).take limit)) := by
  have hlen : (enabledExchangeKeys exs).length = (enabledExchangeNames exs).length := by
    simp [enabledExchangeKeys, enabledExchangeNames]
  constructor
  · intro h
    simp only [_apply_exchanges_limits]
    rw [if_neg (by omega : ¬ limit < (enabledExchangeKeys exs).length)]
  · intro h
    simp only [_apply_exchanges_limits]
    rw [if_pos (by omega : limit < (enabledExchangeKeys exs).length)]
    rw [exchLoop_spec limit exs [] []]
    simp

/-- A concrete exchange mapping: three enabled entries (one by an
absent flag), one disabled entry. -/
def exsW : List (String × ExchangeEntry) :=
  [("binance", ⟨none, none⟩), ("kraken", ⟨some true, some "future"⟩),
    ("coinbase", ⟨none, none⟩), ("okx", ⟨some false, none⟩)]

/-- Witness for `C6_exchange_limiter_characterized` at `exsW` with
ceiling 2: `coinbase` (the third enabled entry) is disabled, the first
two enabled entries survive, and the message lists them. -/
theorem C6_witness :
    (_apply_exchanges_limits ⟨some exsW, none⟩ 2).state
        = ⟨some [("binance", ⟨none, none⟩), ("kraken", ⟨some true, some "future"⟩),
            ("coinbase", ⟨some false, none⟩), ("okx", ⟨some false, none⟩)], none⟩
    ∧ (_apply_exchanges_limits ⟨some exsW, none⟩ 2).message
        = "Reached maximum allowed simultaneous exchanges for this plan, maximum is 2. Your OctoBot will trade on the following exchanges: binance, kraken" := by
  have h := (C6_exchange_limiter_characterized exsW none 2 (by decide)).2 (by decide)
  refine ⟨?_, ?_⟩
  · rw [h.1]; decide
  · rw [h.2]; decide

/-! ## C4 amended: sortedness of the aggregate outside the `==` branch -/

lemma tfStrategyStep_allEnabled (limit : Nat) (st : TfState) (s : Strategy) :
    (tfStrategyStep limit st s).2.allEnabled
      = (tfCombine limit st s.timeFrames).allEnabled := by
  simp only [tfStrategyStep]
  split
  · split <;> rfl
  · rfl

/-- C4, amended: after a per-strategy update that goes through the
below-ceiling branch or the above-ceiling branch (i.e. whenever
`|combined| ≠ ceiling`), the aggregate enabled-timeframe set is in
ascending duration order; the `== ceiling` branch is the exception
shown in `C4_counterexample`. -/
theorem C4_amended_sorted_outside_equal_branch (limit : Nat) (st : TfState)
    (s : Strategy)
    (hs : List.Sorted (fun a b => a ≤ b) st.allEnabled)
    (hne : (pySet (st.allEnabled ++ s.timeFrames)).length ≠ limit) :
    List.Sorted (fun a b => a ≤ b) (tfStrategyStep limit st s).2.allEnabled := by
  rw [tfStrategyStep_allEnabled]
  unfold tfCombine
  by_cases h1 : (pySet (st.allEnabled ++ s.timeFrames)).length < limit
  · simp only [h1, if_true]
    exact List.sorted_insertionSort _ _
  · by_cases h2 : limit < (pySet (st.allEnabled ++ s.timeFrames)).length
    · simp only [h1, h2, if_false, if_true]
      by_cases h3 : st.allEnabled.length = limit
      · simpa [h3] using hs
      · simp only [h3, if_false]
        exact List.sorted_insertionSort _ _
    · omega

/-- Witness for `C4_amended_sorted_outside_equal_branch`: processing
`stratS1` from the empty state with ceiling 2 goes through the
above-ceiling branch and leaves a duration-sorted aggregate. -/
theorem C4_amended_witness :
    List.Sorted (fun a b => a ≤ b) (tfStrategyStep 2 tfInit stratS1).2.allEnabled :=
  C4_amended_sorted_outside_equal_branch 2 tfInit stratS1 (by simp [tfInit]) (by decide)

/-! ## C9: enabled flags only ever move from true to false -/

/-- Flag evolution allowed by C9: an entry whose effective enabled
flag (absent meaning enabled) is false beforehand still has it false
afterwards. -/
def flagMono (a b : Option Bool) : Prop :=
  a.getD true = false → b.getD true = false

lemma flagMono_refl (a : Option Bool) : flagMono a a := fun h => h

lemma flagMono_trans {a b c : Option Bool} (h1 : flagMono a b)
    (h2 : flagMono b c) : flagMono a c := fun h => h2 (h1 h)

/-- `flagMono` on every exchange entry and every currency entry of a
configuration dict (entries compared positionally; a missing mapping
compares as empty). -/
def cfgFlagMono (a b : DictConfig) : Prop :=
  List.Forall₂ (fun p q : String × ExchangeEntry => flagMono p.2.enabled q.2.enabled)
    (a.exchanges.getD []) (b.exchanges.getD [])
  ∧ List.Forall₂ (fun p q : String × CurrencyEntry => flagMono p.2.enabled q.2.enabled)
    (a.cryptoCurrencies.getD []) (b.cryptoCurrencies.getD [])

lemma forall₂_refl_of {α : Type} (R : α → α → Prop) (h : ∀ a, R a a) :
    ∀ l : List α, List.Forall₂ R l l := by
  intro l
  induction l with
  | nil => exact List.Forall₂.nil
  | cons a l ih => exact List.Forall₂.cons (h a) ih

lemma forall₂_trans_of {α : Type} (R : α → α → Prop)
    (htrans : ∀ a b c, R a b → R b c → R a c) :
    ∀ {l1 l2 l3 : List α}, List.Forall₂ R l1 l2 → List.Forall₂ R l2 l3 →
      List.Forall₂ R l1 l3 := by
  intro l1 l2 l3 h12
  induction h12 generalizing l3 with
  | nil => intro h23; cases h23; exact List.Forall₂.nil
  | cons hab h ih =>
    intro h23
    cases h23 with
    | cons hbc h' => exact List.Forall₂.cons (htrans _ _ _ hab hbc) (ih h')

lemma forall₂_flagMono_refl_ex (l : List (String × ExchangeEntry)) :
    List.Forall₂ (fun p q : String × ExchangeEntry => flagMono p.2.enabled q.2.enabled)
      l l :=
  forall₂_refl_of (fun p q : String × ExchangeEntry => flagMono p.2.enabled q.2.enabled)
    (fun p => flagMono_refl p.2.enabled) l

lemma forall₂_flagMono_refl_cc (l : List (String × CurrencyEntry)) :
    List.Forall₂ (fun p q : String × CurrencyEntry => flagMono p.2.enabled q.2.enabled)
      l l :=
  forall₂_refl_of (fun p q : String × CurrencyEntry => flagMono p.2.enabled q.2.enabled)
    (fun p => flagMono_refl p.2.enabled) l

lemma cfgFlagMono_refl (a : DictConfig) : cfgFlagMono a a :=
  ⟨forall₂_flagMono_refl_ex _, forall₂_flagMono_refl_cc _⟩

lemma cfgFlagMono_trans {a b c : DictConfig} (h1 : cfgFlagMono a b)
    (h2 : cfgFlagMono b c) : cfgFlagMono a c :=
  ⟨forall₂_trans_of (fun p q : String × ExchangeEntry => flagMono p.2.enabled q.2.enabled)
      (fun _ _ _ => flagMono_trans) h1.1 h2.1,
    forall₂_trans_of (fun p q : String × CurrencyEntry => flagMono p.2.enabled q.2.enabled)
      (fun _ _ _ => flagMono_trans) h1.2 h2.2⟩

lemma exchLoop_flags (limit : Nat) (exs : List (String × ExchangeEntry)) :
    ∀ kept logs, List.Forall₂
      (fun p q : String × ExchangeEntry => flagMono p.2.enabled q.2.enabled)
      exs (exchLoop limit exs kept logs).1 := by
  induction exs with
  | nil => intro kept logs; exact List.Forall₂.nil
  | cons p rest ih =>
    obtain ⟨n, e⟩ := p
    intro kept logs
    by_cases he : e.enabled.getD true
    · by_cases hk : kept.length < limit
      · simp only [exchLoop, he, hk, if_true]
        exact List.Forall₂.cons (fun hf => absurd hf (by simp [he])) (ih _ _)
      · simp only [exchLoop, he, hk, if_true, if_false]
        exact List.Forall₂.cons (fun hf => absurd hf (by simp [he])) (ih _ _)
    · simp only [exchLoop, he, if_false]
      exact List.Forall₂.cons (fun hf => hf) (ih _ _)

lemma symCurrencyStep_flags (limit : Nat) (c : String) (e : CurrencyEntry)
    (st : SymState) (e2 : CurrencyEntry) (st2 : SymState)
    (h : symCurrencyStep limit c e st = some (e2, st2)) :
    flagMono e.enabled e2.enabled := by
  by_cases he : e.enabled.getD true
  · exact fun hf => absurd hf (by simp [he])
  · unfold symCurrencyStep at h
    rw [if_neg he] at h
    simp only [Option.some.injEq, Prod.mk.injEq] at h
    rw [← h.1]
    exact fun hf => hf

lemma symLoop_flags (limit : Nat) :
    ∀ (ccs : List (String × CurrencyEntry)) (st : SymState),
      List.Forall₂
        (fun p q : String × CurrencyEntry => flagMono p.2.enabled q.2.enabled)
        ccs (symLoop limit ccs st).1 := by
  intro ccs
  induction ccs with
  | nil => intro st; exact List.Forall₂.nil
  | cons p rest ih =>
    obtain ⟨c, e⟩ := p
    intro st
    simp only [symLoop]
    cases hstep : symCurrencyStep limit c e st with
    | none =>
      exact List.Forall₂.cons (flagMono_refl _) (forall₂_flagMono_refl_cc rest)
    | some pr =>
      obtain ⟨e2, st2⟩ := pr
      exact List.Forall₂.cons (symCurrencyStep_flags limit c e st e2 st2 hstep) (ih st2)

lemma exchanges_cfgFlagMono (cfg : DictConfig) (l : Nat) :
    cfgFlagMono cfg (_apply_exchanges_limits cfg l).state := by
  unfold _apply_exchanges_limits
  cases hex : cfg.exchanges with
  | none => exact cfgFlagMono_refl cfg
  | some exs =>
    by_cases hlt : l < (enabledExchangeKeys exs).length
    · simp only [hlt, if_true]
      refine ⟨?_, ?_⟩
      · simpa [hex] using exchLoop_flags l exs [] []
      · exact forall₂_flagMono_refl_cc _
    · simp only [hlt, if_false]
      exact cfgFlagMono_refl cfg

lemma symbols_state (cfg : DictConfig) (l : Nat) :
    (_apply_symbols_limits cfg l).state
      = match cfg.cryptoCurrencies with
        | none => cfg
        | some ccs => { cfg with cryptoCurrencies := some (symLoop l ccs symInit).1 } := by
  unfold _apply_symbols_limits
  cases cfg.cryptoCurrencies with
  | none => rfl
  | some ccs => by_cases h : (symLoop l ccs symInit).2.2 <;> simp [h]

lemma symbols_cfgFlagMono (cfg : DictConfig) (l : Nat) :
    cfgFlagMono cfg (_apply_symbols_limits cfg l).state := by
  rw [symbols_state]
  cases hcc : cfg.cryptoCurrencies with
  | none => exact cfgFlagMono_refl cfg
  | some ccs =>
    refine ⟨forall₂_flagMono_refl_ex _, ?_⟩
    simpa [hcc] using symLoop_flags l ccs symInit

lemma runLimiter_cfgFlagMono (lim : Option Nat)
    (f : FullConfig → Nat → LimitResult FullConfig)
    (acc : FullConfig × List String × Bool)
    (hf : ∀ fc l, cfgFlagMono fc.config ((f fc l).state.config)) :
    cfgFlagMono acc.1.config ((runLimiter lim f acc).1.config) := by
  unfold runLimiter
  by_cases hr : acc.2.2
  · simp only [hr, if_true]
    exact cfgFlagMono_refl _
  · simp only [hr, if_false]
    cases lim with
    | none => exact cfgFlagMono_refl _
    | some l => exact hf acc.1 l

/-- C9: an enforcement pass never re-enables anything: for every
configuration and every choice of the three ceilings, every exchange
entry and every currency entry whose effective enabled flag is false
before `apply_config_limits` still has it false afterwards
(positionally, via `cfgFlagMono`). -/
theorem C9_flags_never_reenabled (fc : FullConfig)
    (maxEx maxSym maxTf : Option Nat) :
    cfgFlagMono fc.config (apply_config_limits fc maxEx maxSym maxTf).1.config := by
  have h1 : cfgFlagMono fc.config
      (runLimiter maxEx exchangesLimiterF (fc, [], false)).1.config :=
    runLimiter_cfgFlagMono maxEx exchangesLimiterF (fc, [], false)
      fun fc' l => exchanges_cfgFlagMono fc'.config l
  have h2 := runLimiter_cfgFlagMono maxSym symbolsLimiterF
    (runLimiter maxEx exchangesLimiterF (fc, [], false))
    fun fc' l => symbols_cfgFlagMono fc'.config l
  have h3 := runLimiter_cfgFlagMono maxTf _apply_time_frames_limits
    (runLimiter maxSym symbolsLimiterF (runLimiter maxEx exchangesLimiterF (fc, [], false)))
    fun fc' l => cfgFlagMono_refl fc'.config
  exact cfgFlagMono_trans (cfgFlagMono_trans h1 h2) h3

/-! ## C7: symbol ceiling invariant and wildcard disabling -/

/-- Total number of pairs stored under currencies whose effective
enabled flag is true. -/
def enabledPairCount (ccs : List (String × CurrencyEntry)) : Nat :=
  ((ccs.filter fun p => p.2.enabled.getD true).map
    fun p => (p.2.pairs.getD []).length).sum

lemma enabledPairCount_cons (p : String × CurrencyEntry)
    (l : List (String × CurrencyEntry)) :
    enabledPairCount (p :: l)
      = (if p.2.enabled.getD true then (p.2.pairs.getD []).length else 0)
        + enabledPairCount l := by
  by_cases h : p.2.enabled.getD true <;>
    simp [enabledPairCount, List.filter_cons, h]

lemma scanPairs_spec (limit : Nat) (c : String) :
    ∀ (ps : List String) (st : PairScan), ∃ d : List String,
      (scanPairs limit c ps st).accepted = st.accepted ++ d ∧
      (scanPairs limit c ps st).updated = st.updated ++ d ∧
      (st.accepted.length ≤ limit →
        (scanPairs limit c ps st).accepted.length ≤ limit) := by
  intro ps
  induction ps with
  | nil =>
    intro st
    exact ⟨[], by simp [scanPairs], by simp [scanPairs],
      fun h => by simpa [scanPairs] using h⟩
  | cons s rest ih =>
    intro st
    by_cases hw : isWildcard s
    · exact ⟨[], by simp [scanPairs, hw], by simp [scanPairs, hw],
        fun h => by simpa [scanPairs, hw] using h⟩
    · by_cases hlen : st.accepted.length < limit
      · obtain ⟨d, h1, h2, h3⟩ :=
          ih { st with accepted := st.accepted ++ [s], updated := st.updated ++ [s] }
        refine ⟨s :: d, ?_, ?_, ?_⟩
        · simp only [scanPairs]
          rw [if_neg hw, if_pos hlen, h1]
          simp
        · simp only [scanPairs]
          rw [if_neg hw, if_pos hlen, h2]
          simp
        · intro hle
          simp only [scanPairs]
          rw [if_neg hw, if_pos hlen]
          refine h3 ?_
          simp
          omega
      · obtain ⟨d, h1, h2, h3⟩ :=
          ih { st with
            disabledAny := true,
            logs := st.logs ++ ["Disabled " ++ s ++ " trading pair from " ++ c] }
        refine ⟨d, ?_, ?_, ?_⟩
        · simp only [scanPairs]
          rw [if_neg hw, if_neg hlen, h1]
        · simp only [scanPairs]
          rw [if_neg hw, if_neg hlen, h2]
        · intro hle
          simp only [scanPairs]
          rw [if_neg hw, if_neg hlen]
          exact h3 (by simpa using hle)

lemma symCurrencyStep_count (limit : Nat) (c : String) (e : CurrencyEntry)
    (st : SymState) (e2 : CurrencyEntry) (st2 : SymState)
    (h : symCurrencyStep limit c e st = some (e2, st2)) :
    ∃ d : List String,
      st2.enabledSymbols = st.enabledSymbols ++ d ∧
      (st.enabledSymbols.length ≤ limit → st2.enabledSymbols.length ≤ limit) ∧
      (e2.enabled.getD true = true → e2.pairs.getD [] = d) := by
  unfold symCurrencyStep at h
  by_cases he : e.enabled.getD true
  · rw [if_pos he] at h
    by_cases hlim : limit ≤ st.enabledSymbols.length
    · rw [if_pos hlim] at h
      simp only [Option.some.injEq, Prod.mk.injEq] at h
      refine ⟨[], ?_, ?_, ?_⟩
      · rw [← h.2]; simp
      · intro hle; rw [← h.2]; simpa using hle
      · intro hen; exfalso; rw [← h.1] at hen; simp at hen
    · rw [if_neg hlim] at h
      cases hp : e.pairs with
      | none => rw [hp] at h; simp at h
      | some ps =>
        rw [hp] at h
        simp only [Option.some.injEq, Prod.mk.injEq] at h
        obtain ⟨d, hacc, hupd, hlen⟩ :=
          scanPairs_spec limit c ps ⟨st.enabledSymbols, [], false, false, st.logs⟩
        refine ⟨d, ?_, ?_, ?_⟩
        · rw [← h.2]; exact hacc
        · intro hle; rw [← h.2]; exact hlen hle
        · intro hen
          rw [← h.1] at hen ⊢
          by_cases hwc : (scanPairs limit c ps
              ⟨st.enabledSymbols, [], false, false, st.logs⟩).wildcard
          · exfalso; simp [hwc] at hen
          · simp only [hwc, if_false]
            simpa using hupd
  · rw [if_neg he] at h
    simp only [Option.some.injEq, Prod.mk.injEq] at h
    refine ⟨[], ?_, ?_, ?_⟩
    · rw [← h.2]; simp
    · intro hle; rw [← h.2]; simpa using hle
    · intro hen; exfalso; rw [← h.1] at hen; simp [hen] at he

lemma symLoop_count (limit : Nat) :
    ∀ (ccs : List (String × CurrencyEntry)) (st : SymState),
      st.enabledSymbols.length ≤ limit →
      (symLoop limit ccs st).2.1.enabledSymbols.length ≤ limit ∧
      ((symLoop limit ccs st).2.2 = false →
        enabledPairCount (symLoop limit ccs st).1 + st.enabledSymbols.length
          ≤ (symLoop limit ccs st).2.1.enabledSymbols.length) := by
  intro ccs
  induction ccs with
  | nil =>
    intro st hst
    refine ⟨by simpa [symLoop] using hst, ?_⟩
    intro _
    simp [symLoop, enabledPairCount]
  | cons p rest ih =>
    obtain ⟨c, e⟩ := p
    intro st hst
    simp only [symLoop]
    cases hstep : symCurrencyStep limit c e st with
    | none =>
      refine ⟨by simpa using hst, ?_⟩
      intro hfalse
      simp at hfalse
    | some pr =>
      obtain ⟨e2, st2⟩ := pr
      obtain ⟨d, hd, hle, hpairs⟩ := symCurrencyStep_count limit c e st e2 st2 hstep
      have hst2 : st2.enabledSymbols.length ≤ limit := hle hst
      obtain ⟨ihl, ihc⟩ := ih st2 hst2
      refine ⟨by simpa using ihl, ?_⟩
      intro hr
      simp only at hr
      have hcount := ihc hr
      have hglen : st.enabledSymbols.length + d.length = st2.enabledSymbols.length := by
        rw [hd]; simp
      rw [enabledPairCount_cons]
      by_cases hen : e2.enabled.getD true
      · have hp : e2.pairs.getD [] = d := hpairs hen
        simp [hen, hp]
        omega
      · simp [hen]
        omega

lemma scanPairs_wildcard (limit : Nat) (c : String) :
    ∀ (ps : List String) (st : PairScan), "*" ∈ ps →
      (scanPairs limit c ps st).wildcard = true := by
  intro ps
  induction ps with
  | nil => intro st h; cases h
  | cons s rest ih =>
    intro st h
    by_cases hw : isWildcard s
    · simp [scanPairs, hw]
    · have hne : s ≠ "*" := by simpa [isWildcard] using hw
      have hmem : "*" ∈ rest := by
        cases h with
        | head => exact absurd rfl hne
        | tail _ h2 => exact h2
      by_cases hlen : st.accepted.length < limit <;>
        simp [scanPairs, hw, hlen, ih _ hmem]

lemma symCurrencyStep_wildcard (limit : Nat) (c : String) (e : CurrencyEntry)
    (st : SymState) (e2 : CurrencyEntry) (st2 : SymState)
    (h : symCurrencyStep limit c e st = some (e2, st2))
    (hwc : "*" ∈ e.pairs.getD []) :
    e2.enabled.getD true = false := by
  unfold symCurrencyStep at h
  by_cases he : e.enabled.getD true
  · rw [if_pos he] at h
    by_cases hlim : limit ≤ st.enabledSymbols.length
    · rw [if_pos hlim] at h
      simp only [Option.some.injEq, Prod.mk.injEq] at h
      rw [← h.1]
      rfl
    · rw [if_neg hlim] at h
      cases hp : e.pairs with
      | none => rw [hp] at h; simp at h
      | some ps =>
        rw [hp] at h
        have hw : (scanPairs limit c ps
            ⟨st.enabledSymbols, [], false, false, st.logs⟩).wildcard = true :=
          scanPairs_wildcard limit c ps _ (by simpa [hp] using hwc)
        simp only [Option.some.injEq, Prod.mk.injEq] at h
        rw [← h.1]
        simp [hw]
  · rw [if_neg he] at h
    simp only [Option.some.injEq, Prod.mk.injEq] at h
    rw [← h.1]
    simpa using he

lemma symLoop_wildcard (limit : Nat) :
    ∀ (ccs : List (String × CurrencyEntry)) (st : SymState),
      (symLoop limit ccs st).2.2 = false →
      List.Forall₂ (fun p q : String × CurrencyEntry =>
        "*" ∈ p.2.pairs.getD [] → q.2.enabled.getD true = false)
        ccs (symLoop limit ccs st).1 := by
  intro ccs
  induction ccs with
  | nil => intro st _; exact List.Forall₂.nil
  | cons p rest ih =>
    obtain ⟨c, e⟩ := p
    intro st hr
    simp only [symLoop] at hr ⊢
    cases hstep : symCurrencyStep limit c e st with
    | none => rw [hstep] at hr; simp at hr
    | some pr =>
      obtain ⟨e2, st2⟩ := pr
      rw [hstep] at hr
      simp only at hr
      exact List.Forall₂.cons
        (fun hw => symCurrencyStep_wildcard limit c e st e2 st2 hstep hw)
        (ih st2 hr)

/-- C7: for every currency mapping and ceiling ≥ 1, when the symbol
limiter returns (no exception), the total number of pairs stored under
currencies that remain enabled is at most the ceiling, and every
currency whose pair list contained the wildcard token ends with its
effective enabled flag false. -/
theorem C7_symbol_ceiling_and_wildcard (cfg : DictConfig)
    (ccs : List (String × CurrencyEntry)) (limit : Nat)
    (hl : 1 ≤ limit)
    (hcc : cfg.cryptoCurrencies = some ccs)
    (hr : (_apply_symbols_limits cfg limit).raised = false) :
    ∃ ccs2,
      (_apply_symbols_limits cfg limit).state.cryptoCurrencies = some ccs2
      ∧ enabledPairCount ccs2 ≤ limit
      ∧ List.Forall₂ (fun p q : String × CurrencyEntry =>
          "*" ∈ p.2.pairs.getD [] → q.2.enabled.getD true = false) ccs ccs2 := by
  have hloop : (symLoop limit ccs symInit).2.2 = false := by
    by_cases h : (symLoop limit ccs symInit).2.2
    · exfalso
      unfold _apply_symbols_limits at hr
      rw [hcc] at hr
      simp [h] at hr
    · simpa using h
  refine ⟨(symLoop limit ccs symInit).1, ?_, ?_, ?_⟩
  · rw [symbols_state, hcc]
  · have hc := symLoop_count limit ccs symInit (by simp [symInit])
    have h2 := hc.2 hloop
    have h1 := hc.1
    have h0 : symInit.enabledSymbols.length = 0 := rfl
    omega
  · exact symLoop_wildcard limit ccs symInit hloop

/-! ## C8: per-strategy pruning under the disabled flag -/

lemma mem_pySetFrom (x : Nat) :
    ∀ (l seen : List Nat), x ∈ pySetFrom seen l ↔ x ∈ l ∧ ¬ x ∈ seen := by
  intro l
  induction l with
  | nil => intro seen; simp [pySetFrom]
  | cons y ys ih =>
    intro seen
    by_cases hy : seen.contains y
    · rw [pySetFrom, if_pos hy, ih seen]
      have hy' : y ∈ seen := List.elem_iff.mp hy
      constructor
      · rintro ⟨hmem, hns⟩
        exact ⟨List.mem_cons_of_mem _ hmem, hns⟩
      · rintro ⟨hmem, hns⟩
        refine ⟨?_, hns⟩
        rcases List.mem_cons.mp hmem with hx | hx
        · subst hx; exact absurd hy' hns
        · exact hx
    · rw [pySetFrom, if_neg hy]
      have hy' : ¬ y ∈ seen := fun hm => hy (List.elem_iff.mpr hm)
      constructor
      · intro hmem
        rcases List.mem_cons.mp hmem with hx | hx
        · subst hx; exact ⟨List.mem_cons_self _ _, hy'⟩
        · obtain ⟨h1, h2⟩ := (ih (seen ++ [y])).mp hx
          refine ⟨List.mem_cons_of_mem _ h1, fun hm => h2 ?_⟩
          exact List.mem_append_left _ hm
      · rintro ⟨hmem, hns⟩
        rcases List.mem_cons.mp hmem with hx | hx
        · subst hx; exact List.mem_cons_self _ _
        · by_cases hxy : x = y
          · subst hxy; exact List.mem_cons_self _ _
          · refine List.mem_cons_of_mem _ ((ih (seen ++ [y])).mpr ⟨hx, ?_⟩)
            intro hm
            rcases List.mem_append.mp hm with hm | hm
            · exact hns hm
            · simp at hm; exact hxy hm

lemma mem_pySet (x : Nat) (l : List Nat) : x ∈ pySet l ↔ x ∈ l := by
  rw [pySet, mem_pySetFrom]
  simp

lemma mem_sortTimeFrames (x : Nat) (l : List Nat) :
    x ∈ sortTimeFrames l ↔ x ∈ l :=
  (List.perm_insertionSort _ l).mem_iff

lemma tfCombine_cases (limit : Nat) (st : TfState) (tfs : List Nat) :
    (tfCombine limit st tfs).logs = st.logs
    ∧ (tfCombine limit st tfs).updates = st.updates
    ∧ (∀ x ∈ st.allEnabled, x ∈ (tfCombine limit st tfs).allEnabled)
    ∧ ((tfCombine limit st tfs).hasDisabled = false →
        ∀ x ∈ tfs, x ∈ (tfCombine limit st tfs).allEnabled) := by
  unfold tfCombine
  by_cases h1 : (pySet (st.allEnabled ++ tfs)).length < limit
  · simp only [h1, if_true]
    refine ⟨by trivial, by trivial, ?_, ?_⟩
    · intro x hx
      rw [mem_sortTimeFrames, mem_pySet]
      exact List.mem_append_left _ hx
    · intro _ x hx
      rw [mem_sortTimeFrames, mem_pySet]
      exact List.mem_append_right _ hx
  · by_cases h2 : limit < (pySet (st.allEnabled ++ tfs)).length
    · by_cases h3 : st.allEnabled.length = limit
      · simp only [h1, h2, h3, if_true, if_false]
        refine ⟨by trivial, by trivial, fun x hx => hx, ?_⟩
        intro hfalse
        simp at hfalse
      · simp only [h1, h2, h3, if_true, if_false]
        refine ⟨by trivial, by trivial, ?_, ?_⟩
        · intro x hx
          rw [mem_sortTimeFrames]
          exact List.mem_append_left _ hx
        · intro hfalse
          simp at hfalse
    · simp only [h1, h2, if_false]
      refine ⟨by trivial, by trivial, ?_, ?_⟩
      · intro x hx
        rw [mem_pySet]
        exact List.mem_append_left _ hx
      · intro _ x hx
        rw [mem_pySet]
        exact List.mem_append_right _ hx

lemma filter_contains_of_mem (tfs all : List Nat) (tf : Nat) (h : tf ∈ tfs) :
    (tfs.filter fun tf2 => all.contains tf2).contains tf = all.contains tf := by
  cases hc : all.contains tf with
  | true => exact List.elem_iff.mpr (List.mem_filter.mpr ⟨h, hc⟩)
  | false =>
    have hnm : ¬ tf ∈ tfs.filter fun tf2 => all.contains tf2 := by
      intro hmem
      have h2 := (List.mem_filter.mp hmem).2
      rw [hc] at h2
      cases h2
    rw [Bool.eq_false_iff]
    intro hx
    exact hnm (List.elem_iff.mp hx)

/-- The per-strategy behaviour of the flagged branch (limits.py lines
107-121), phrased against the aggregate: the strategy's stored set
becomes the intersection (in request order) of its requested set with
the aggregate, one log line is emitted per requested timeframe outside
the aggregate, and the persist collaborator is invoked iff the
intersection differs from the requested list. -/
lemma tfStrategyStep_flag_spec (limit : Nat) (st : TfState) (s : Strategy)
    (h : (tfCombine limit st s.timeFrames).hasDisabled = true) :
    (tfStrategyStep limit st s).1.timeFrames
        = s.timeFrames.filter
            (fun tf => (tfCombine limit st s.timeFrames).allEnabled.contains tf)
    ∧ (tfStrategyStep limit st s).2.logs
        = st.logs ++ (s.timeFrames.filter
            (fun tf => !(tfCombine limit st s.timeFrames).allEnabled.contains tf)).map
            (fun tf => "Disabled " ++ tfValue tf ++ " time frame for " ++ s.name)
    ∧ (tfStrategyStep limit st s).2.updates
        = st.updates ++ (if s.timeFrames.filter
              (fun tf => (tfCombine limit st s.timeFrames).allEnabled.contains tf)
            = s.timeFrames then [] else [s.name]) := by
  have hF2 : s.timeFrames.filter
        (fun tf => !(s.timeFrames.filter fun tf2 =>
          (tfCombine limit st s.timeFrames).allEnabled.contains tf2).contains tf)
      = s.timeFrames.filter
        (fun tf => !(tfCombine limit st s.timeFrames).allEnabled.contains tf) := by
    refine List.filter_congr ?_
    intro tf htf
    rw [filter_contains_of_mem _ _ _ htf]
  have hF3 : (s.timeFrames.filter
        (fun tf => !(tfCombine limit st s.timeFrames).allEnabled.contains tf)) = []
      ↔ s.timeFrames.filter
          (fun tf => (tfCombine limit st s.timeFrames).allEnabled.contains tf)
        = s.timeFrames := by
    rw [List.filter_eq_nil_iff, List.filter_eq_self]
    constructor
    · intro hh tf htf
      simpa using hh tf htf
    · intro hh tf htf
      simpa using hh tf htf
  have hlogs := (tfCombine_cases limit st s.timeFrames).1
  have hupd := (tfCombine_cases limit st s.timeFrames).2.1
  simp only [tfStrategyStep]
  rw [if_pos h]
  by_cases hm : (s.timeFrames.filter
      (fun tf => !(s.timeFrames.filter fun tf2 =>
        (tfCombine limit st s.timeFrames).allEnabled.contains tf2).contains tf)).isEmpty
  · rw [if_pos hm]
    rw [List.isEmpty_iff, hF2] at hm
    refine ⟨?_, ?_, ?_⟩
    · exact (hF3.mp hm).symm
    · rw [hlogs, hF2, hm]
    · rw [hupd, if_pos (hF3.mp hm)]
      simp
  · rw [if_neg hm]
    rw [List.isEmpty_iff, hF2] at hm
    refine ⟨rfl, ?_, ?_⟩
    · rw [hlogs, hF2]
    · rw [hupd, if_neg ?_]
      intro hfe
      exact hm (hF3.mpr hfe)

lemma tfStrategyStep_subset (limit : Nat) (st : TfState) (s : Strategy) :
    ∀ tf ∈ (tfStrategyStep limit st s).1.timeFrames,
      tf ∈ (tfStrategyStep limit st s).2.allEnabled := by
  intro tf htf
  rw [tfStrategyStep_allEnabled]
  by_cases hflag : (tfCombine limit st s.timeFrames).hasDisabled
  · rw [(tfStrategyStep_flag_spec limit st s hflag).1] at htf
    exact List.elem_iff.mp (List.mem_filter.mp htf).2
  · have hne : (tfStrategyStep limit st s).1 = s := by
      simp only [tfStrategyStep]
      rw [if_neg hflag]
    rw [hne] at htf
    exact (tfCombine_cases limit st s.timeFrames).2.2.2
      (by simpa using hflag) tf htf

lemma tfLoop_mono (limit : Nat) :
    ∀ (l : List Strategy) (st : TfState) (x : Nat),
      x ∈ st.allEnabled → x ∈ (tfLoop limit l st).2.allEnabled := by
  intro l
  induction l with
  | nil => intro st x hx; simpa [tfLoop] using hx
  | cons s rest ih =>
    intro st x hx
    simp only [tfLoop]
    refine ih _ x ?_
    rw [tfStrategyStep_allEnabled]
    exact (tfCombine_cases limit st s.timeFrames).2.2.1 x hx

lemma tfLoop_subset (limit : Nat) :
    ∀ (l : List Strategy) (st : TfState),
      ∀ s2 ∈ (tfLoop limit l st).1, ∀ tf ∈ s2.timeFrames,
        tf ∈ (tfLoop limit l st).2.allEnabled := by
  intro l
  induction l with
  | nil => intro st s2 hs2; simp [tfLoop] at hs2
  | cons s rest ih =>
    intro st s2 hs2 tf htf
    simp only [tfLoop] at hs2 ⊢
    rcases List.mem_cons.mp hs2 with h | h
    · subst h
      exact tfLoop_mono limit rest _ tf (tfStrategyStep_subset limit st s tf htf)
    · exact ih _ s2 h tf htf

/-- C8: whenever the has-disabled flag is set once a strategy's
requirement has been combined into the aggregate, that strategy's
stored timeframe set is recomputed as the intersection (in request
order) of its requested set with the current aggregate, one disable
line is logged for each requested timeframe absent from that
intersection, and the persist-updated-timeframe-config collaborator is
invoked for the strategy iff its effective set changed; consequently
(second conjunct, for the whole loop) every strategy's retained
timeframes are a subset of the final aggregate. -/
theorem C8_flagged_strategy_pruning (limit : Nat) (st : TfState) (s : Strategy)
    (h : (tfCombine limit st s.timeFrames).hasDisabled = true) :
    ((tfStrategyStep limit st s).1.timeFrames
        = s.timeFrames.filter
            (fun tf => (tfCombine limit st s.timeFrames).allEnabled.contains tf)
      ∧ (tfStrategyStep limit st s).2.logs
        = st.logs ++ (s.timeFrames.filter
            (fun tf => !(tfCombine limit st s.timeFrames).allEnabled.contains tf)).map
            (fun tf => "Disabled " ++ tfValue tf ++ " time frame for " ++ s.name)
      ∧ (tfStrategyStep limit st s).2.updates
        = st.updates ++ (if s.timeFrames.filter
              (fun tf => (tfCombine limit st s.timeFrames).allEnabled.contains tf)
            = s.timeFrames then [] else [s.name]))
    ∧ ∀ (strats : List Strategy), ∀ s2 ∈ (tfLoop limit strats tfInit).1,
        ∀ tf ∈ s2.timeFrames, tf ∈ (tfLoop limit strats tfInit).2.allEnabled :=
  ⟨tfStrategyStep_flag_spec limit st s h,
    fun strats => tfLoop_subset limit strats tfInit⟩

/-- Witness for `C8_flagged_strategy_pruning`: `stratB` processed with
aggregate `[1m]` and ceiling 2 (the flag is set by the combine step). -/
theorem C8_witness :
    (tfStrategyStep 2 ⟨false, [1], [], []⟩ stratB).1.timeFrames
        = stratB.timeFrames.filter
            (fun tf => (tfCombine 2 ⟨false, [1], [], []⟩ stratB.timeFrames).allEnabled.contains tf)
      ∧ (tfStrategyStep 2 ⟨false, [1], [], []⟩ stratB).2.logs
        = [] ++ (stratB.timeFrames.filter
            (fun tf => !(tfCombine 2 ⟨false, [1], [], []⟩ stratB.timeFrames).allEnabled.contains tf)).map
            (fun tf => "Disabled " ++ tfValue tf ++ " time frame for " ++ stratB.name)
      ∧ (tfStrategyStep 2 ⟨false, [1], [], []⟩ stratB).2.updates
        = [] ++ (if stratB.timeFrames.filter
              (fun tf => (tfCombine 2 ⟨false, [1], [], []⟩ stratB.timeFrames).allEnabled.contains tf)
            = stratB.timeFrames then [] else [stratB.name]) :=
  (C8_flagged_strategy_pruning 2 ⟨false, [1], [], []⟩ stratB (by decide)).1

/-- A concrete currency mapping: an enabled currency with two pairs, an
enabled currency holding the wildcard, and a disabled currency. -/
def ccsW : List (String × CurrencyEntry) :=
  [("BTC", ⟨none, some ["BTC/USDT", "BTC/EUR"]⟩),
    ("ETH", ⟨none, some ["*"]⟩),
    ("DOGE", ⟨some false, some ["DOGE/USDT"]⟩)]

/-- Witness for `C7_symbol_ceiling_and_wildcard` at `ccsW` with
ceiling 1. -/
theorem C7_witness :
    ∃ ccs2,
      (_apply_symbols_limits ⟨none, some ccsW⟩ 1).state.cryptoCurrencies = some ccs2
      ∧ enabledPairCount ccs2 ≤ 1
      ∧ List.Forall₂ (fun p q : String × CurrencyEntry =>
          "*" ∈ p.2.pairs.getD [] → q.2.enabled.getD true = false) ccsW ccs2 :=
  C7_symbol_ceiling_and_wildcard ⟨none, some ccsW⟩ ccsW 1 (by decide) rfl (by decide)

/-! ## C10: pairs scanned before a wildcard stay accepted -/

lemma scanPairs_before_wildcard (limit : Nat) (c : String) :
    ∀ (ps1 ps2 : List String) (st : PairScan),
      ¬ "*" ∈ ps1 →
      st.accepted.length + ps1.length ≤ limit →
      scanPairs limit c (ps1 ++ "*" :: ps2) st
        = { st with
            accepted := st.accepted ++ ps1,
            updated := st.updated ++ ps1,
            wildcard := true } := by
  intro ps1
  induction ps1 with
  | nil =>
    intro ps2 st hw hcap
    simp [scanPairs, isWildcard]
  | cons p ps1' ih =>
    intro ps2 st hw hcap
    rw [List.mem_cons, not_or] at hw
    obtain ⟨hnep, hw2⟩ := hw
    have hp : ¬ (isWildcard p = true) := by
      simp only [isWildcard, beq_iff_eq]
      intro hx
      exact hnep hx.symm
    simp only [List.cons_append, List.append_eq, scanPairs]
    rw [if_neg hp, if_pos (by simp at hcap; omega : st.accepted.length < limit)]
    rw [ih ps2 _ hw2 (by simp; simp at hcap; omega)]
    simp [List.append_assoc]

lemma symCurrencyStep_before_wildcard (limit : Nat) (c : String)
    (e : CurrencyEntry) (st : SymState) (ps1 ps2 : List String)
    (he : e.enabled.getD true = true)
    (hp : e.pairs = some (ps1 ++ "*" :: ps2))
    (hw : ¬ "*" ∈ ps1)
    (hcap : st.enabledSymbols.length + ps1.length ≤ limit)
    (hne : ps1 ≠ []) :
    symCurrencyStep limit c e st
      = some ({ e with pairs := some ps1, enabled := some false },
          ⟨st.enabledSymbols ++ ps1, true,
            "Disabled wildcard symbol for " ++ c ++ ". ", st.logs⟩) := by
  have hlen1 : 1 ≤ ps1.length := by
    cases ps1 with
    | nil => exact absurd rfl hne
    | cons a l => simp
  unfold symCurrencyStep
  rw [if_pos he, if_neg (by omega : ¬ limit ≤ st.enabledSymbols.length)]
  simp only [hp]
  rw [scanPairs_before_wildcard limit c ps1 ps2 _ hw (by simpa using hcap)]
  simp

lemma symCurrencyStep_hasDisabled (limit : Nat) (c : String) (e : CurrencyEntry)
    (st : SymState) (e2 : CurrencyEntry) (st2 : SymState)
    (h : symCurrencyStep limit c e st = some (e2, st2))
    (hd : st.hasDisabled = true) : st2.hasDisabled = true := by
  unfold symCurrencyStep at h
  by_cases he : e.enabled.getD true
  · rw [if_pos he] at h
    by_cases hlim : limit ≤ st.enabledSymbols.length
    · rw [if_pos hlim] at h
      simp only [Option.some.injEq, Prod.mk.injEq] at h
      rw [← h.2]
    · rw [if_neg hlim] at h
      cases hpp : e.pairs with
      | none => rw [hpp] at h; simp at h
      | some ps =>
        rw [hpp] at h
        simp only [Option.some.injEq, Prod.mk.injEq] at h
        rw [← h.2]
        simp [hd]
  · rw [if_neg he] at h
    simp only [Option.some.injEq, Prod.mk.injEq] at h
    rw [← h.2]
    exact hd

lemma symLoop_hasDisabled (limit : Nat) :
    ∀ (ccs : List (String × CurrencyEntry)) (st : SymState),
      st.hasDisabled = true → (symLoop limit ccs st).2.1.hasDisabled = true := by
  intro ccs
  induction ccs with
  | nil => intro st hd; simpa [symLoop] using hd
  | cons p rest ih =>
    obtain ⟨c, e⟩ := p
    intro st hd
    simp only [symLoop]
    cases hstep : symCurrencyStep limit c e st with
    | none => simpa using hd
    | some pr =>
      obtain ⟨e2, st2⟩ := pr
      exact ih st2 (symCurrencyStep_hasDisabled limit c e st e2 st2 hstep hd)

lemma symLoop_accepted_ext (limit : Nat) :
    ∀ (ccs : List (String × CurrencyEntry)) (st : SymState),
      ∃ ext, (symLoop limit ccs st).2.1.enabledSymbols
        = st.enabledSymbols ++ ext := by
  intro ccs
  induction ccs with
  | nil => intro st; exact ⟨[], by simp [symLoop]⟩
  | cons p rest ih =>
    obtain ⟨c, e⟩ := p
    intro st
    simp only [symLoop]
    cases hstep : symCurrencyStep limit c e st with
    | none => exact ⟨[], by simp⟩
    | some pr =>
      obtain ⟨e2, st2⟩ := pr
      obtain ⟨d, hd, _, _⟩ := symCurrencyStep_count limit c e st e2 st2 hstep
      obtain ⟨ext, hext⟩ := ih st2
      exact ⟨d ++ ext, by rw [hext, hd, List.append_assoc]⟩

lemma symLoop_length (limit : Nat) :
    ∀ (ccs : List (String × CurrencyEntry)) (st : SymState),
      (symLoop limit ccs st).1.length = ccs.length := by
  intro ccs
  induction ccs with
  | nil => intro st; simp [symLoop]
  | cons p rest ih =>
    obtain ⟨c, e⟩ := p
    intro st
    simp only [symLoop]
    cases hstep : symCurrencyStep limit c e st with
    | none => simp
    | some pr =>
      obtain ⟨e2, st2⟩ := pr
      simp [ih st2]

lemma symLoop_append (limit : Nat) :
    ∀ (l1 l2 : List (String × CurrencyEntry)) (st : SymState),
      symLoop limit (l1 ++ l2) st
        = if (symLoop limit l1 st).2.2 then
            ((symLoop limit l1 st).1 ++ l2, (symLoop limit l1 st).2)
          else
            ((symLoop limit l1 st).1 ++ (symLoop limit l2 (symLoop limit l1 st).2.1).1,
              (symLoop limit l2 (symLoop limit l1 st).2.1).2) := by
  intro l1
  induction l1 with
  | nil =>
    intro l2 st
    simp [symLoop]
  | cons p rest ih =>
    obtain ⟨c, e⟩ := p
    intro l2 st
    simp only [List.cons_append, symLoop]
    cases hstep : symCurrencyStep limit c e st with
    | none => simp
    | some pr =>
      obtain ⟨e2, st2⟩ := pr
      dsimp only
      simp only [List.append_eq]
      rw [ih l2 st2]
      by_cases hr : (symLoop limit rest st2).2.2 <;> simp [hr]


lemma symbols_raised (cfg : DictConfig) (l : Nat) :
    (_apply_symbols_limits cfg l).raised
      = match cfg.cryptoCurrencies with
        | none => true
        | some ccs => (symLoop l ccs symInit).2.2 := by
  unfold _apply_symbols_limits
  cases cfg.cryptoCurrencies with
  | none => rfl
  | some ccs => by_cases h : (symLoop l ccs symInit).2.2 <;> simp [h]

lemma symbols_message (cfg : DictConfig) (l : Nat)
    (ccs : List (String × CurrencyEntry))
    (hcc : cfg.cryptoCurrencies = some ccs)
    (hr : (symLoop l ccs symInit).2.2 = false) :
    (_apply_symbols_limits cfg l).message
      = if (symLoop l ccs symInit).2.1.hasDisabled then
          (symLoop l ccs symInit).2.1.message
            ++ "Reached maximum allowed simultaneous trading pairs for this plan, maximum is "
            ++ toString l ++ ". Your OctoBot will trade following pairs: "
            ++ String.intercalate ", " (symLoop l ccs symInit).2.1.enabledSymbols ++ "."
        else (symLoop l ccs symInit).2.1.message := by
  unfold _apply_symbols_limits
  rw [hcc]
  simp [hr]

/-- C10: an enabled currency whose pair list holds non-wildcard pairs
before a wildcard token, reached with enough remaining capacity, keeps
its scanned prefix: those pairs are appended to the global accepted
list (consuming ceiling capacity that later currencies no longer
have), stored back as the currency pair list and listed in the
returned warning message, even though the currency itself ends with
its enabled flag set to false. -/
theorem C10_wildcard_prefix_consumes_capacity (limit : Nat) (c : String)
    (e : CurrencyEntry) (ps1 ps2 : List String)
    (pre post : List (String × CurrencyEntry))
    (exs : Option (List (String × ExchangeEntry)))
    (he : e.enabled.getD true = true)
    (hp : e.pairs = some (ps1 ++ "*" :: ps2))
    (hw : ¬ "*" ∈ ps1)
    (hne : ps1 ≠ [])
    (hpre : (symLoop limit pre symInit).2.2 = false)
    (hcap : (symLoop limit pre symInit).2.1.enabledSymbols.length + ps1.length ≤ limit)
    (hall : (_apply_symbols_limits ⟨exs, some (pre ++ (c, e) :: post)⟩ limit).raised
      = false) :
    ∃ out1 out2 ext note,
      (_apply_symbols_limits ⟨exs, some (pre ++ (c, e) :: post)⟩
          limit).state.cryptoCurrencies
        = some (out1 ++ (c, { e with pairs := some ps1, enabled := some false }) :: out2)
      ∧ out1.length = pre.length
      ∧ (_apply_symbols_limits ⟨exs, some (pre ++ (c, e) :: post)⟩ limit).message
        = note
          ++ "Reached maximum allowed simultaneous trading pairs for this plan, maximum is "
          ++ toString limit ++ ". Your OctoBot will trade following pairs: "
          ++ String.intercalate ", "
              ((symLoop limit pre symInit).2.1.enabledSymbols ++ ps1 ++ ext) ++ "." := by
  have hstep := symCurrencyStep_before_wildcard limit c e
    (symLoop limit pre symInit).2.1 ps1 ps2 he hp hw hcap hne
  have hcons : symLoop limit ((c, e) :: post) (symLoop limit pre symInit).2.1
      = ((c, { e with pairs := some ps1, enabled := some false }) :: (symLoop limit post ⟨(symLoop limit pre symInit).2.1.enabledSymbols ++ ps1, true,
        "Disabled wildcard symbol for " ++ c ++ ". ",
        (symLoop limit pre symInit).2.1.logs⟩).1,
          (symLoop limit post ⟨(symLoop limit pre symInit).2.1.enabledSymbols ++ ps1, true,
        "Disabled wildcard symbol for " ++ c ++ ". ",
        (symLoop limit pre symInit).2.1.logs⟩).2.1,
          (symLoop limit post ⟨(symLoop limit pre symInit).2.1.enabledSymbols ++ ps1, true,
        "Disabled wildcard symbol for " ++ c ++ ". ",
        (symLoop limit pre symInit).2.1.logs⟩).2.2) := by
    simp only [symLoop, hstep]
  have hfull : symLoop limit (pre ++ (c, e) :: post) symInit
      = ((symLoop limit pre symInit).1 ++ (c, { e with pairs := some ps1, enabled := some false }) :: (symLoop limit post ⟨(symLoop limit pre symInit).2.1.enabledSymbols ++ ps1, true,
        "Disabled wildcard symbol for " ++ c ++ ". ",
        (symLoop limit pre symInit).2.1.logs⟩).1,
          (symLoop limit post ⟨(symLoop limit pre symInit).2.1.enabledSymbols ++ ps1, true,
        "Disabled wildcard symbol for " ++ c ++ ". ",
        (symLoop limit pre symInit).2.1.logs⟩).2.1,
          (symLoop limit post ⟨(symLoop limit pre symInit).2.1.enabledSymbols ++ ps1, true,
        "Disabled wildcard symbol for " ++ c ++ ". ",
        (symLoop limit pre symInit).2.1.logs⟩).2.2) := by
    rw [symLoop_append limit pre ((c, e) :: post) symInit, if_neg (by simp [hpre]),
      hcons]
  have hrfull : (symLoop limit (pre ++ (c, e) :: post) symInit).2.2 = false := by
    have := symbols_raised (⟨exs, some (pre ++ (c, e) :: post)⟩ : DictConfig) limit
    rw [hall] at this
    exact this.symm
  have hrpost : (symLoop limit post ⟨(symLoop limit pre symInit).2.1.enabledSymbols ++ ps1, true,
        "Disabled wildcard symbol for " ++ c ++ ". ",
        (symLoop limit pre symInit).2.1.logs⟩).2.2 = false := by
    rw [hfull] at hrfull
    exact hrfull
  obtain ⟨extP, hextP⟩ := symLoop_accepted_ext limit post ⟨(symLoop limit pre symInit).2.1.enabledSymbols ++ ps1, true,
        "Disabled wildcard symbol for " ++ c ++ ". ",
        (symLoop limit pre symInit).2.1.logs⟩
  refine ⟨(symLoop limit pre symInit).1, (symLoop limit post ⟨(symLoop limit pre symInit).2.1.enabledSymbols ++ ps1, true,
        "Disabled wildcard symbol for " ++ c ++ ". ",
        (symLoop limit pre symInit).2.1.logs⟩).1, extP,
    (symLoop limit post ⟨(symLoop limit pre symInit).2.1.enabledSymbols ++ ps1, true,
        "Disabled wildcard symbol for " ++ c ++ ". ",
        (symLoop limit pre symInit).2.1.logs⟩).2.1.message, ?_, ?_, ?_⟩
  · rw [symbols_state]
    simp only []
    rw [hfull]
  · exact symLoop_length limit pre symInit
  · rw [symbols_message (⟨exs, some (pre ++ (c, e) :: post)⟩ : DictConfig) limit
      (pre ++ (c, e) :: post) rfl hrfull]
    rw [hfull]
    have hdis : (symLoop limit post ⟨(symLoop limit pre symInit).2.1.enabledSymbols ++ ps1, true,
        "Disabled wildcard symbol for " ++ c ++ ". ",
        (symLoop limit pre symInit).2.1.logs⟩).2.1.hasDisabled = true :=
      symLoop_hasDisabled limit post ⟨(symLoop limit pre symInit).2.1.enabledSymbols ++ ps1, true,
        "Disabled wildcard symbol for " ++ c ++ ". ",
        (symLoop limit pre symInit).2.1.logs⟩ rfl
    rw [if_pos hdis, hextP]

/-- A one-currency prefix holding one accepted pair. -/
def preW : List (String × CurrencyEntry) := [("BTC", ⟨none, some ["BTC/USDT"]⟩)]

/-- An enabled currency with one real pair before a wildcard. -/
def eW : CurrencyEntry := ⟨none, some ["ETH/USDT", "*"]⟩

/-- Witness for `C10_wildcard_prefix_consumes_capacity`: with ceiling 2,
`ETH`'s pair `ETH/USDT` (scanned before the wildcard) is kept in the
stored pair list and in the message while `ETH` ends disabled. -/
theorem C10_witness :
    ∃ out1 out2 ext note,
      (_apply_symbols_limits ⟨none, some (preW ++ ("ETH", eW) :: [])⟩
          2).state.cryptoCurrencies
        = some (out1
            ++ ("ETH", { eW with pairs := some ["ETH/USDT"], enabled := some false })
              :: out2)
      ∧ out1.length = preW.length
      ∧ (_apply_symbols_limits ⟨none, some (preW ++ ("ETH", eW) :: [])⟩ 2).message
        = note
          ++ "Reached maximum allowed simultaneous trading pairs for this plan, maximum is "
          ++ toString 2 ++ ". Your OctoBot will trade following pairs: "
          ++ String.intercalate ", "
              ((symLoop 2 preW symInit).2.1.enabledSymbols ++ ["ETH/USDT"] ++ ext)
          ++ "." :=
  C10_wildcard_prefix_consumes_capacity 2 "ETH" eW ["ETH/USDT"] [] preW [] none
    (by decide) (by decide) (by decide) (by decide) (by decide) (by decide) (by decide)

/-- A currency mapping where `ETH`'s pre-wildcard prefix exceeds the
remaining capacity: with ceiling 2, `BTC/USD` and `ETH/A` fill the
ceiling before `ETH/B` is scanned. -/
def ccsC10 : List (String × CurrencyEntry) :=
  [("BTC", ⟨none, some ["BTC/USD"]⟩),
    ("ETH", ⟨none, some ["ETH/A", "ETH/B", "*"]⟩)]

set_option maxRecDepth 4000 in
/-- C10, counterexample: the claim says every pair scanned before the
wildcard is appended to the accepted list, kept in the stored pair list
and listed in the message.  On `ccsC10` with ceiling 2, `ETH/B` is
scanned before the wildcard but the accepted count is already 2, so it
is rejected at limits.py line 67 (only logged): the stored pair list is
`[ETH/A]` and the message lists only `BTC/USD, ETH/A` — `ETH/B` is
neither appended, nor kept, nor listed. -/
theorem C10_counterexample :
    (_apply_symbols_limits ⟨none, some ccsC10⟩ 2).state.cryptoCurrencies
      = some [("BTC", ⟨none, some ["BTC/USD"]⟩),
          ("ETH", ⟨some false, some ["ETH/A"]⟩)]
    ∧ (_apply_symbols_limits ⟨none, some ccsC10⟩ 2).message
      = "Disabled wildcard symbol for ETH. Reached maximum allowed simultaneous trading pairs for this plan, maximum is 2. Your OctoBot will trade following pairs: BTC/USD, ETH/A."
    ∧ (_apply_symbols_limits ⟨none, some ccsC10⟩ 2).logs
      = ["Disabled ETH/B trading pair from ETH"]
    ∧ ¬ "ETH/B" ∈ ["ETH/A"]
    ∧ ¬ "ETH/B" ∈ ["BTC/USD", "ETH/A"] := by
  decide
